import Mathlib

/-
Verification of the lite-api company-aggregation pipeline.

The development shallowly embeds the pure text-processing logic of
app/scrapper_functions/functions/functions.py, the orchestrator result
collection of app/scrapper_functions/scrapper.py, and the endpoint flow of
app/main.py.  Network and browser effects (Selenium page fetches) are
modelled as `Except`-valued inputs: `.ok text` is the page text the real
code would have scraped, `.error e` is an exception raised inside the
scraping block.  The named-entity recogniser `find_countries` (an external
library) is modelled as an arbitrary function parameter returning the name
of the first recognised country, if any.
-/

namespace LiteApi

/-! Low-level character classes, mirroring Python `re` ASCII semantics.
`\w` is alphanumeric or underscore; `\s` is the ASCII whitespace set. -/

def isWordChar (c : Char) : Bool :=
  c.isAlphanum || c == '_'

def pySpaceChars : List Char :=
  [Char.ofNat 32, Char.ofNat 9, Char.ofNat 10, Char.ofNat 13, Char.ofNat 12, Char.ofNat 11]

def isPySpace (c : Char) : Bool :=
  pySpaceChars.contains c

/-- Python `str.lower()` on a character list (ASCII case folding, as
`Char.toLower` only maps basic latin letters, which covers the data the
scraper compares). -/
def strLower (t : List Char) : List Char :=
  t.map Char.toLower

/-- Character at position `i`, with an out-of-bounds default that is not a
word character (matching the fact that `\b` treats the outside of the
string as a non-word position). -/
def charAt (t : List Char) (i : Nat) : Char :=
  t.getD i (Char.ofNat 32)

def wordAt (t : List Char) (i : Nat) : Bool :=
  decide (i < t.length) && isWordChar (charAt t i)

/-- Python regex `\b`: exactly one of the two adjacent positions holds a
word character (positions before the start or past the end count as
non-word). -/
def boundaryAt (t : List Char) (i : Nat) : Bool :=
  (if i = 0 then false else wordAt t (i - 1)) != wordAt t i

/-- The literal `pat` occurs in `t` starting at position `i`. -/
def litAt (t : List Char) (i : Nat) (pat : List Char) : Bool :=
  pat.isPrefixOf (t.drop i)

/-- A match of `re.escape(pat)` bracketed by `\b` on both sides, at
position `i`. -/
def matchAt (pat t : List Char) (i : Nat) : Bool :=
  boundaryAt t i && litAt t i pat && boundaryAt t (i + pat.length)

/-- `re.findall(rf"\b{re.escape(pat)}\b", t).length`: left-to-right
non-overlapping scan.  On a match the scan resumes after the match (one
step forward for an empty pattern); otherwise it advances one position. -/
def scanFrom (pat t : List Char) : Nat → Nat → Nat
  | 0, _ => 0
  | fuel + 1, i =>
    if t.length < i then 0
    else if matchAt pat t i then 1 + scanFrom pat t fuel (i + max pat.length 1)
    else scanFrom pat t fuel (i + 1)

def mentionCount (pat t : List Char) : Nat :=
  scanFrom pat t (t.length + 1) 0

/-- `re.search(rf"\b{re.escape(pat)}\b", t)` succeeds. -/
def hasMatch (pat t : List Char) : Bool :=
  (List.range (t.length + 1)).any fun i => matchAt pat t i

/-- Python `pat in t` substring test. -/
def containsSub (t pat : List Char) : Bool :=
  (List.range (t.length + 1)).any fun i => litAt t i pat

/-! Insertion-ordered counters, mirroring `collections.Counter`:
`addCount` is `counter[k] += n` (first occurrence appends at the end),
and `pickMax` is `most_common(1)[0]` (the earliest-inserted key among
those of maximal count, since `most_common` is a stable descending
sort). -/

def keysOf {α : Type} (l : List (α × Nat)) : List α :=
  l.map Prod.fst

def addCount {α : Type} [DecidableEq α] : List (α × Nat) → α → Nat → List (α × Nat)
  | [], k, n => [(k, n)]
  | (k0, v0) :: rest, k, n =>
    if k0 = k then (k0, v0 + n) :: rest else (k0, v0) :: addCount rest k n

def tallyFrom {α : Type} [DecidableEq α] (acc : List (α × Nat)) (xs : List α) :
    List (α × Nat) :=
  xs.foldl (fun a x => addCount a x 1) acc

/-- `Counter(xs)` for a list of occurrences. -/
def tally {α : Type} [DecidableEq α] (xs : List α) : List (α × Nat) :=
  tallyFrom [] xs

/-- One comparison step of `most_common(1)`: a later candidate displaces
an earlier entry only with a strictly greater count. -/
def pickMaxStep {α : Type} (kv : α × Nat) : Option (α × Nat) → α × Nat
  | none => kv
  | some kv2 => if kv2.2 > kv.2 then kv2 else kv

/-- `most_common(1)[0]`: first entry of maximal count (later entries win
only with a strictly greater count, matching the stable descending sort
used by `Counter.most_common`). -/
def pickMax {α : Type} : List (α × Nat) → Option (α × Nat)
  | [] => none
  | kv :: rest => some (pickMaxStep kv (pickMax rest))

/-- Index of the first occurrence of `a` in `l` (scan order). -/
def firstIdx {α : Type} [DecidableEq α] : List α → α → Nat
  | [], _ => 0
  | x :: xs, a => if x = a then 0 else firstIdx xs a + 1

/-! Python-dict-as-association-list helpers (insertion order preserved,
assignment to an existing key updates in place). -/

def dictLookup {β : Type} (d : List (String × β)) (k : String) : Option β :=
  (d.find? (fun e => e.1 == k)).map Prod.snd

def dictSet {β : Type} : List (String × β) → String → β → List (String × β)
  | [], k, v => [(k, v)]
  | (k0, v0) :: rest, k, v =>
    if k0 = k then (k0, v) :: rest else (k0, v0) :: dictSet rest k v

/-- `d[k].append(x)`.  In `extract_table_data` every header key is
initialised before any append, so the missing-key case never arises; the
model leaves the dictionary unchanged there. -/
def dictAppendVal : List (String × List String) → String → String → List (String × List String)
  | [], _, _ => []
  | (k0, vs) :: rest, k, x =>
    if k0 = k then (k0, vs ++ [x]) :: rest else (k0, vs) :: dictAppendVal rest k x

/-! functions.py, `extract_most_mentioned_country` (lines 99-127):
lower-case the text, count `\b`-bracketed occurrences of each allow-listed
country (lower-cased pattern, counter keyed by the original spelling,
keys only added when at least one match exists), and return the most
common key, or the empty string when no country matched. -/

def buildCountsStep (t : List Char) (acc : List (String × Nat)) (c : String) :
    List (String × Nat) :=
  if 0 < mentionCount (strLower c.data) t then
    addCount acc c (mentionCount (strLower c.data) t)
  else acc

def buildCounts (african_countries : List String) (t : List Char) : List (String × Nat) :=
  african_countries.foldl (buildCountsStep t) []

def extract_most_mentioned_country (full_text : List Char) (african_countries : List String) :
    String :=
  let t := strLower full_text
  match pickMax (buildCounts african_countries t) with
  | some kv => kv.1
  | none => ""

/-! functions.py, `find_country_of_origin` (lines 130-205).  Stage 1 scans
the markers "headquarters" and "country" in the profile fields, runs the
named-entity recogniser (modelled by `ner`) on the value and accepts the
recognised name only when it is allow-listed.  Stages 2-4 run over the
lower-cased joined search-result text; any exception in the scraping block
is caught and yields the empty string. -/

def stage1Marker (ner : String → Option String) (company_info : List (String × String))
    (african_countries : List String) (marker : String) : Option String :=
  match dictLookup company_info marker with
  | none => none
  | some v =>
    match ner v with
    | none => none
    | some name => if name ∈ african_countries then some name else none

def stage1 (ner : String → Option String) (company_info : List (String × String))
    (african_countries : List String) : Option String :=
  match stage1Marker ner company_info african_countries ("headquarters") with
  | some c => some c
  | none => stage1Marker ner company_info african_countries ("country")

/-- The reversed demonym map `{v.lower(): k for k, v in items}`: a later
pair with the same lowered value overwrites an earlier one, so lookup
finds the last such pair. -/
def reversedGet (demonyms : List (String × String)) (v : List Char) : Option String :=
  (demonyms.reverse.find? (fun e => strLower e.2.data == v)).map Prod.fst

def stage3Go (demonyms : List (String × String)) (african_countries : List String)
    (t : List Char) : List (String × String) → Option String
  | [] => none
  | (_, v) :: rest =>
    if hasMatch (strLower v.data) t then
      match reversedGet demonyms (strLower v.data) with
      | some m =>
        if m ∈ african_countries then some m
        else stage3Go demonyms african_countries t rest
      | none => stage3Go demonyms african_countries t rest
    else stage3Go demonyms african_countries t rest

def stage3 (demonyms : List (String × String)) (african_countries : List String)
    (t : List Char) : Option String :=
  stage3Go demonyms african_countries t demonyms

/-- The alternatives of the stage-4 group
`(?:in|from|based in|located in|headquartered in|a[n]?|an)`; `a[n]?`
expands to "a" and "an", and the final `an` alternative is redundant. -/
def ctxWords : List (List Char) :=
  [("in").data, ("from").data, ("based in").data, ("located in").data,
   ("headquartered in").data, ("a").data, ("an").data]

/-- All characters in positions `[i, j)` are whitespace (the `\s*` part). -/
def spacesFromTo (t : List Char) (i j : Nat) : Bool :=
  decide (i ≤ j) && decide (j ≤ t.length) &&
    ((List.range (j - i)).all fun d => isPySpace (charAt t (i + d)))

/-- A stage-4 match in which the optional context group is present: a
context word at a `\b` position, then `\s*`, then the country literal,
then `\b`. -/
def ctxMatchFrom (c t : List Char) (i j : Nat) : Bool :=
  ctxWords.any fun w =>
    boundaryAt t i && litAt t i w && spacesFromTo t (i + w.length) j &&
      litAt t j c && boundaryAt t (j + c.length)

/-- A stage-4 match in which the optional context group is empty: `\b`,
then `\s*`, then the country literal, then `\b`. -/
def bareMatchFrom (c t : List Char) (i j : Nat) : Bool :=
  boundaryAt t i && spacesFromTo t i j && litAt t j c && boundaryAt t (j + c.length)

def hasCtxOccurrence (c t : List Char) : Bool :=
  (List.range (t.length + 1)).any fun i =>
    (List.range (t.length + 1)).any fun j => ctxMatchFrom c t i j

/-- `re.search` succeeds for the stage-4 pattern
`\b(?:...)?\s*country\b`: some position admits a match with the group
present or absent. -/
def stage4Match (c t : List Char) : Bool :=
  (List.range (t.length + 1)).any fun i =>
    (List.range (t.length + 1)).any fun j =>
      ctxMatchFrom c t i j || bareMatchFrom c t i j

def stage4 (african_countries : List String) (t : List Char) : Option String :=
  african_countries.find? fun c => stage4Match (strLower c.data) t

def find_country_of_origin (ner : String → Option String) (company : String)
    (african_countries : List String) (company_info : List (String × String))
    (african_demonyms : List (String × String)) (search : Except String (List Char)) :
    String :=
  match stage1 ner company_info african_countries with
  | some c => c
  | none =>
    match search with
    | .error _ => ""
    | .ok raw =>
      let full_text := strLower raw
      let country := extract_most_mentioned_country full_text african_countries
      if country ∈ african_countries then country
      else
        match stage3 african_demonyms african_countries full_text with
        | some m => m
        | none =>
          match stage4 african_countries full_text with
          | some c4 => c4
          | none => ""

/-! functions.py, `extract_table_data` (lines 240-275).  A table is its
header-cell texts and its body rows.  The code initialises one dict entry
per header cell, then for each row reads `data[i]` for every header index
`i`; a row with fewer cells than the header raises IndexError, modelled by
an `Except.error`.  `re.sub(r"#\d+", "", cell)` removes each hash sign
followed by a maximal digit run. -/

structure HTMLTable where
  header : List String
  rows : List (List String)

def removeHashGo : Nat → List Char → List Char
  | 0, s => s
  | _ + 1, [] => []
  | fuel + 1, c :: rest =>
    if c == '#' && 0 < (rest.takeWhile Char.isDigit).length then
      removeHashGo fuel (rest.dropWhile Char.isDigit)
    else c :: removeHashGo fuel rest

def removeHashNums (t : List Char) : List Char :=
  removeHashGo t.length t

def cleanCell (s : String) : String :=
  String.mk (removeHashNums s.data)

def initTableDict (header : List String) : List (String × List String) :=
  header.foldl (fun d h => dictSet d h []) []

/-- The inner loop `for i in range(len(header)): ... data[i]` in lockstep:
exhausting the row while header cells remain is Python IndexError. -/
def appendRowCells : List (String × List String) → List String → List String →
    Except String (List (String × List String))
  | d, [], _ => .ok d
  | _, _ :: _, [] => .error ("IndexError: list index out of range")
  | d, h :: hs, x :: xs => appendRowCells (dictAppendVal d h (cleanCell x)) hs xs

def extract_table_data (tbl : HTMLTable) : Except String (List (String × List String)) :=
  tbl.rows.foldlM (fun d row => appendRowCells d tbl.header row) (initTableDict tbl.header)

/-! functions.py, `extract_company_details` (lines 209-237).  For each of
the 7 section labels, every list entry containing the label as a
(case-sensitive) substring assigns the extracted value, so the last
matching entry wins.  The value is the first match of
`\W\d+\W?\d?+\w?\W?`, stripped, else the raw entry. -/

def sections : List String :=
  [("annual revenue"), ("venture funding"), ("revenue per employee"),
   ("total funding"), ("current valuation"), ("employees"), ("employee count")]

/-- Attempt of the pattern `\W\d+\W?\d?+\w?\W?` at position `i`: a
non-word character followed by at least one digit; the greedy digit run,
then each optional single-character piece taken when possible (all later
pieces are optional, so greedy first choices are final). -/
def matchMoneyAt (t : List Char) (i : Nat) : Option (List Char) :=
  if i < t.length && !isWordChar (charAt t i) then
    let ds := ((t.drop (i + 1)).takeWhile Char.isDigit).length
    if 0 < ds then
      let j1 := i + 1 + ds
      let j2 := if j1 < t.length && !isWordChar (charAt t j1) then j1 + 1 else j1
      let j3 := if j2 < t.length && (charAt t j2).isDigit then j2 + 1 else j2
      let j4 := if j3 < t.length && isWordChar (charAt t j3) then j3 + 1 else j3
      let j5 := if j4 < t.length && !isWordChar (charAt t j4) then j4 + 1 else j4
      some ((t.drop i).take (j5 - i))
    else none
  else none

def reSearchMoney (t : List Char) : Option (List Char) :=
  (List.range t.length).findSome? fun i => matchMoneyAt t i

def pyStrip (t : List Char) : List Char :=
  ((t.dropWhile isPySpace).reverse.dropWhile isPySpace).reverse

def extractDetail (li : String) : String :=
  match reSearchMoney li.data with
  | some g => String.mk (pyStrip g)
  | none => li

def extract_company_details (li_list : List String) : List (String × String) :=
  sections.foldl
    (fun d sec =>
      li_list.foldl
        (fun d2 li =>
          if containsSub li.data sec.data then dictSet d2 sec (extractDetail li)
          else d2)
        d)
    []

/-! functions.py, `clean_ddg_urls` (lines 42-62) and `extract_link`
(lines 65-96).  URL cleaning: a falsy href gives Python `None` (modelled
as `none`); an href containing "uddg=" is parsed as a URL, the first
non-blank `uddg` query value is percent-decoded by `parse_qs` and then
percent-decoded a second time by the explicit `unquote` call; otherwise
the href is returned as is. -/

def hexVal (c : Char) : Option Nat :=
  if c.isDigit then some (c.toNat - 48)
  else if 97 ≤ c.toNat && c.toNat ≤ 102 then some (c.toNat - 87)
  else if 65 ≤ c.toNat && c.toNat ≤ 70 then some (c.toNat - 55)
  else none

def percentDecode : List Char → List Char
  | [] => []
  | '%' :: h1 :: h2 :: rest =>
    match hexVal h1, hexVal h2 with
    | some a, some b => Char.ofNat (16 * a + b) :: percentDecode rest
    | _, _ => '%' :: percentDecode (h1 :: h2 :: rest)
  | c :: rest => c :: percentDecode rest

def plusToSpace (t : List Char) : List Char :=
  t.map fun c => if c == '+' then Char.ofNat 32 else c

def unquotePlus (t : List Char) : List Char :=
  percentDecode (plusToSpace t)

def takeUntilChar (stop : Char) (t : List Char) : List Char :=
  t.takeWhile fun c => !(c == stop)

def afterChar (stop : Char) (t : List Char) : List Char :=
  (t.dropWhile fun c => !(c == stop)).drop 1

/-- `urlparse(u).query`: the part after the first `?` of the pre-fragment
portion (empty when there is no `?`). -/
def urlQuery (u : List Char) : List Char :=
  afterChar '?' (takeUntilChar '#' u)

def splitOnChar (sep : Char) : List Char → List (List Char)
  | [] => [[]]
  | c :: rest =>
    match splitOnChar sep rest with
    | [] => [[c]]
    | p :: ps => if c == sep then [] :: p :: ps else (c :: p) :: ps

/-- `parse_qs(q).get("uddg", [""])[0]`: first `&`-separated pair whose
unquoted key is "uddg" and whose raw value is non-blank
(`keep_blank_values` is false); the value is `unquote`d with `+` as
space. -/
def parse_qs_uddg (q : List Char) : Option (List Char) :=
  (splitOnChar '&' q).findSome? fun seg =>
    let k := takeUntilChar '=' seg
    if k.length = seg.length then none
    else
      let v := seg.drop (k.length + 1)
      if v = [] then none
      else if unquotePlus k = ("uddg").data then some (unquotePlus v) else none

def cleanedUddg (u : List Char) : List Char :=
  percentDecode (match parse_qs_uddg (urlQuery u) with
    | some v => v
    | none => [])

def clean_ddg_urls (url : Option String) : Option String :=
  match url with
  | none => none
  | some u =>
    if u = "" then none
    else if containsSub u.data (("uddg=").data) then some (String.mk (cleanedUddg u.data))
    else some u

/-- Python `str.split(sep)` for a non-empty separator, on character
lists (left-to-right, non-overlapping, empty segments preserved). -/
def splitOnSeqGo (sep : List Char) : Nat → List Char → List (List Char)
  | _, [] => [[]]
  | 0, t => [t]
  | fuel + 1, c :: rest =>
    if sep.isPrefixOf (c :: rest) then
      [] :: splitOnSeqGo sep fuel ((c :: rest).drop sep.length)
    else
      match splitOnSeqGo sep fuel rest with
      | [] => [[c]]
      | p :: ps => (c :: p) :: ps

def splitOnSeq (sep t : List Char) : List (List Char) :=
  splitOnSeqGo sep t.length t

/-- `href.split("/url?q=")[-1].split("&")[0]`. -/
def postprocessLink (s : String) : String :=
  String.mk ((splitOnSeq (("&").data)
    ((splitOnSeq (("/url?q=").data) s.data).getLastD s.data)).headD s.data)

/-- The guard `if href and link_type in href`: the cleaned href must be
truthy (present and non-empty) and contain the domain hint. -/
def truthyContains (h : Option String) (link_type : String) : Option String :=
  match h with
  | none => none
  | some s =>
    if !(s == "") && containsSub s.data link_type.data then some s else none

/-- `extract_link`.  `links` is the list of `href` attributes of the
`a.result__url` anchors (an anchor without the attribute gives `none`).
`links[0]` / `links[1]` on a too-short list raise IndexError. -/
def extract_link (links : List (Option String)) (link_type : String) : Except String String :=
  match links[0]? with
  | none => .error ("IndexError: list index out of range")
  | some h0 =>
    match truthyContains (clean_ddg_urls h0) link_type with
    | some s => .ok (postprocessLink s)
    | none =>
      match links[1]? with
      | none => .error ("IndexError: list index out of range")
      | some h1 =>
        match truthyContains (clean_ddg_urls h1) link_type with
        | some s => .ok (postprocessLink s)
        | none => .error (("Cannot find a ") ++ link_type ++ (" link for the company"))

/-! functions.py, `extract_investor_no` (lines 278-350).  The investor
pattern is an alternation of eight phrasings, each with one capture group
of digits.  The tiny regex engine below reproduces Python backtracking
order: alternatives are tried left to right at each scan position, `\s+`
and `\d+` are greedy (longest first), `.*?` is lazy (shortest first) and
`.` does not cross a newline. -/

inductive RE where
  | lit : List Char → RE
  | ws : RE
  | digitsCap : RE
  | lazyAny : RE

def natOfDigits (ds : List Char) : Nat :=
  ds.foldl (fun a c => a * 10 + (c.toNat - 48)) 0

def spaceRunLen (t : List Char) : Nat :=
  (t.takeWhile isPySpace).length

def digitRunLen (t : List Char) : Nat :=
  (t.takeWhile Char.isDigit).length

def dotRunLen (t : List Char) : Nat :=
  (t.takeWhile fun c => !(c == Char.ofNat 10)).length

/-- Match a sequence of regex pieces against a prefix of `t`, returning
the consumed length and the captured number.  Candidate lengths are tried
in Python preference order, the first full success winning. -/
def matchSeq : List RE → List Char → Option (Nat × Option Nat)
  | [], _ => some (0, none)
  | .lit s :: rs, t =>
    if s.isPrefixOf t then
      (matchSeq rs (t.drop s.length)).map fun p => (s.length + p.1, p.2)
    else none
  | .ws :: rs, t =>
    let m := spaceRunLen t
    ((List.range m).map fun d => m - d).findSome? fun j =>
      (matchSeq rs (t.drop j)).map fun p => (j + p.1, p.2)
  | .digitsCap :: rs, t =>
    let m := digitRunLen t
    ((List.range m).map fun d => m - d).findSome? fun j =>
      (matchSeq rs (t.drop j)).map fun p => (j + p.1, some (natOfDigits (t.take j)))
  | .lazyAny :: rs, t =>
    let m := dotRunLen t
    (List.range (m + 1)).findSome? fun j =>
      (matchSeq rs (t.drop j)).map fun p => (j + p.1, p.2)

def investorAlternatives : List (List RE) :=
  [[.lit (("has").data), .ws, .digitsCap, .ws, .lit (("investors").data)],
   [.lit (("from").data), .ws, .digitsCap, .ws, .lit (("investors").data)],
   [.lit (("total").data), .ws, .lit (("of").data), .ws, .digitsCap, .ws,
    .lit (("investors").data)],
   [.lit (("raised").data), .ws, .lazyAny, .ws, .lit (("from").data), .ws, .digitsCap,
    .ws, .lit (("investors").data)],
   [.lit (("backed").data), .ws, .lit (("by").data), .ws, .digitsCap, .ws,
    .lit (("investors").data)],
   [.digitsCap, .ws, .lit (("investors").data), .ws, .lit (("participated").data)],
   [.digitsCap, .ws, .lit (("institutional").data), .ws, .lit (("investors").data)],
   [.digitsCap, .ws, .lit (("investors").data)]]

/-- `re.findall` over the alternation: scan positions left to right,
non-overlapping; each match contributes its single non-empty group. -/
def findallNumsGo (t : List Char) : Nat → Nat → List Nat
  | 0, _ => []
  | fuel + 1, i =>
    if t.length < i then []
    else
      match investorAlternatives.findSome? (fun alt => matchSeq alt (t.drop i)) with
      | some (len, cap) =>
        let rest := findallNumsGo t fuel (i + max len 1)
        match cap with
        | some n => n :: rest
        | none => rest
      | none => findallNumsGo t fuel (i + 1)

def findallNums (t : List Char) : List Nat :=
  findallNumsGo t (t.length + 1) 0

/-- `extract_investor_no`.  `search` models the scraping block; on an
exception `full_text` is unbound, `re.findall` raises NameError and the
handler falls through to `return 0`.  The page text is lower-cased twice
(line 327 and line 328). -/
def extract_investor_no (search : Except String (List Char)) : Nat :=
  match search with
  | .error _ => 0
  | .ok raw =>
    let full_text := strLower (strLower raw)
    match pickMax (tally (findallNums full_text)) with
    | some kv => kv.1
    | none => 0

/-! scrapper.py, `information_scrapper` (lines 49-127).  The result
dictionary is modelled as a structure with `none` for keys never written.
The futures dict is iterated in insertion order (wiki, stats, country);
an exception from the wiki or stats future is logged and skipped, an
exception from the country future (including the `ValueError` raised on an
empty result) is re-raised and fails the call, and the final guard
re-checks that a country was stored. -/

structure Information where
  company : String
  company_info : Option (List (String × String)) := none
  description : Option String := none
  competitors : Option (List (String × List String)) := none
  funding : Option (List (String × List String)) := none
  company_info_fixed : Option (List (String × String)) := none
  country : Option String := none
deriving DecidableEq, Repr

abbrev WikiResult := String × List (String × String) × String

abbrev StatsResult :=
  List (String × List String) × List (String × List String) × List (String × String)

def processWiki (info : Information) (r : Except String WikiResult) : Information :=
  match r with
  | .ok (name, ci, desc) =>
    { info with company := name, company_info := some ci, description := some desc }
  | .error _ => info

def processStats (info : Information) (r : Except String StatsResult) : Information :=
  match r with
  | .ok (comp, fund, cid) =>
    { info with competitors := some comp, funding := some fund,
                company_info_fixed := some cid }
  | .error _ => info

def processCountry (info : Information) (r : Except String String) :
    Except String Information :=
  match r with
  | .error e => .error (("country scraping failed: ") ++ e)
  | .ok c =>
    if c = "" then .error ("country scraping failed: Country not found")
    else .ok { info with country := some c }

def information_scrapper_collect (company : String) (wiki : Except String WikiResult)
    (stats : Except String StatsResult) (country : Except String String) :
    Except String Information :=
  match processCountry (processStats (processWiki { company := company } wiki) stats)
      country with
  | .error e => .error e
  | .ok info =>
    match info.country with
    | none => .error ("Could not determine country of origin")
    | some c =>
      if c = "" then .error ("Could not determine country of origin") else .ok info

/-- Python call semantics for plain positional parameters without
defaults: a call with the wrong number of positional arguments raises
TypeError before the body runs. -/
def pythonPositionalCall {α : Type} (paramCount argCount : Nat) (body : Except String α) :
    Except String α :=
  if argCount = paramCount then body
  else .error ("TypeError: wrong number of positional arguments")

/-- functions.py line 480: `def get_wiki_link(company)` has one
parameter. -/
def get_wiki_link_paramCount : Nat := 1

/-- functions.py line 353: `def get_company_stats(company_name)` has one
parameter. -/
def get_company_stats_paramCount : Nat := 1

/-- functions.py line 130: `def find_country_of_origin(company,
african_countries, company_info, african_demonyms)` has four
parameters. -/
def find_country_of_origin_paramCount : Nat := 4

/-- `information_scrapper`: the three submissions pass the browser pool as
an extra positional argument (2, 2 and 5 arguments respectively), so each
future raises TypeError when its body would run; the bodies are abstract
parameters since they are never reached. -/
def information_scrapper (company : String) (wikiBody : Except String WikiResult)
    (statsBody : Except String StatsResult) (countryBody : Except String String) :
    Except String Information :=
  information_scrapper_collect company
    (pythonPositionalCall get_wiki_link_paramCount 2 wikiBody)
    (pythonPositionalCall get_company_stats_paramCount 2 statsBody)
    (pythonPositionalCall find_country_of_origin_paramCount 5 countryBody)

/-! main.py, `get_information` (lines 47-139).  The store and cache are
the mutable state; the wiki, country-resolution and stats sub-calls are
`Except`-valued inputs.  Every exception raised in the fresh-data path is
converted into an error response by the enclosing handlers (an inner
`HTTPException` is re-wrapped at line 122 and serialised at line 139);
persisting and caching happen only after all three steps succeed.  Note
line 134 caches under the unstripped name. -/

/-- Python `str.strip()` on a `String`, via the character-level strip
(used for `company.strip()` in the endpoint). -/
def pyStripString (s : String) : String :=
  String.mk (pyStrip s.data)

structure CompanyRecord where
  company : String
  company_info_fixed : List (String × String)
  company_info : List (String × String)
  description : String
  country : String
  competitors : List (String × List String)
  funding : List (String × List String)
  created_at : String
  updated_at : String
deriving DecidableEq, Repr

structure AppState where
  companies : List CompanyRecord
  cache : List (String × CompanyRecord)
deriving DecidableEq, Repr

def cacheLookup (cache : List (String × CompanyRecord)) (k : String) :
    Option CompanyRecord :=
  (cache.find? (fun e => e.1 == k)).map Prod.snd

def cacheSet (cache : List (String × CompanyRecord)) (k : String) (r : CompanyRecord) :
    List (String × CompanyRecord) :=
  match cache with
  | [] => [(k, r)]
  | (k0, v0) :: rest => if k0 = k then (k0, r) :: rest else (k0, v0) :: cacheSet rest k r

/-- `find_one({"company": {"$regex": f"^{name}$", "$options": "i"}})`:
first stored record whose company name equals the query
case-insensitively. -/
def dbFindCaseInsensitive (store : List CompanyRecord) (name : String) :
    Option CompanyRecord :=
  store.find? fun r => strLower r.company.data == strLower name.data

inductive ApiResponse where
  | ok : CompanyRecord → ApiResponse
  | err : Nat → String → ApiResponse
deriving DecidableEq, Repr

def get_information (st : AppState) (now : String) (company : String)
    (wiki : Except String WikiResult) (countryRes : Except String String)
    (stats : Except String StatsResult) : ApiResponse × AppState :=
  let key := pyStripString company
  if key = "" then (.err 400 ("Company name cannot be empty."), st)
  else
    match cacheLookup st.cache key with
    | some r0 => (.ok r0, st)
    | none =>
      match dbFindCaseInsensitive st.companies key with
      | some r0 => (.ok r0, { st with cache := cacheSet st.cache key r0 })
      | none =>
        let wikiData : Option String × Option (List (String × String)) × Option String :=
          match wiki with
          | .ok (n, ci, d) => (some n, some ci, some d)
          | .error _ => (none, none, none)
        match countryRes with
        | .error e => (.err 500 (("Country Detection Error: ") ++ e), st)
        | .ok country =>
          if country = "" then
            (.err 500 ("Country Match Error: could not find country of origin"), st)
          else
            match stats with
            | .error e => (.err 500 e, st)
            | .ok (competitors, funding, cid) =>
              let name_for_stats := (wikiData.1).getD key
              let r0 : CompanyRecord := {
                company := name_for_stats,
                company_info_fixed := cid,
                company_info := (wikiData.2.1).getD [],
                description := (wikiData.2.2).getD "",
                country := country,
                competitors := competitors,
                funding := funding,
                created_at := now,
                updated_at := now }
              (.ok r0,
               { companies := st.companies ++ [r0], cache := cacheSet st.cache company r0 })

/-! Basic lemmas about the character and scanning layer. -/

theorem toNat_ofNat_of_lt {n : Nat} (hn : n < 55296) : (Char.ofNat n).toNat = n := by
  have hv : n.isValidChar := Or.inl hn
  rw [Char.ofNat, dif_pos hv]
  rfl

theorem charToLower_idem (c : Char) : c.toLower.toLower = c.toLower := by
  simp only [Char.toLower]
  by_cases h : c.toNat ≥ 65 ∧ c.toNat ≤ 90
  · rw [if_pos h]
    have h1 : (Char.ofNat (c.toNat + 32)).toNat = c.toNat + 32 :=
      toNat_ofNat_of_lt (by omega)
    rw [if_neg]
    rw [h1]
    omega
  · rw [if_neg h, if_neg h]

theorem strLower_idem (t : List Char) : strLower (strLower t) = strLower t := by
  induction t with
  | nil => rfl
  | cons c rest ih =>
    simp only [strLower, List.map_cons] at ih ⊢
    rw [charToLower_idem]
    exact congrArg _ (by simpa [strLower] using ih)

theorem wordAt_of_le {t : List Char} {i : Nat} (h : t.length ≤ i) : wordAt t i = false := by
  simp [wordAt, Nat.not_lt.2 h]

theorem boundaryAt_of_lt {t : List Char} {i : Nat} (h : t.length < i) :
    boundaryAt t i = false := by
  have h1 : wordAt t i = false := wordAt_of_le (Nat.le_of_lt h)
  have h2 : wordAt t (i - 1) = false := wordAt_of_le (by omega)
  simp only [boundaryAt, h1, h2]
  split <;> rfl

theorem matchAt_of_len_lt {pat t : List Char} {i : Nat} (h : t.length < i) :
    matchAt pat t i = false := by
  simp [matchAt, boundaryAt_of_lt h]

theorem scanFrom_eq_zero_iff (pat t : List Char) :
    ∀ fuel i, (scanFrom pat t fuel i = 0 ↔
      ∀ j, i ≤ j → j < i + fuel → matchAt pat t j = false) := by
  intro fuel
  induction fuel with
  | zero =>
    intro i
    constructor
    · intro _ j h1 h2
      omega
    · intro _
      rfl
  | succ fuel ih =>
    intro i
    by_cases h1 : t.length < i
    · constructor
      · intro _ j hj _
        exact matchAt_of_len_lt (Nat.lt_of_lt_of_le h1 hj)
      · intro _
        simp [scanFrom, h1]
    · by_cases h2 : matchAt pat t i = true
      · constructor
        · intro hz
          exfalso
          simp [scanFrom, h1, h2] at hz
        · intro hall
          exact absurd h2 (by simp [hall i (Nat.le_refl i) (by omega)])
      · have heq : scanFrom pat t (fuel + 1) i = scanFrom pat t fuel (i + 1) := by
          simp [scanFrom, h1, h2]
        rw [heq, ih (i + 1)]
        constructor
        · intro hall j hj1 hj2
          rcases Nat.eq_or_lt_of_le hj1 with rfl | hlt
          · exact Bool.not_eq_true _ ▸ (by simpa using h2)
          · exact hall j hlt (by omega)
        · intro hall j hj1 hj2
          exact hall j (by omega) (by omega)

theorem mentionCount_eq_zero_iff (pat t : List Char) :
    mentionCount pat t = 0 ↔ ∀ j, matchAt pat t j = false := by
  rw [mentionCount, scanFrom_eq_zero_iff]
  constructor
  · intro hall j
    by_cases hj : j < t.length + 1
    · exact hall j (Nat.zero_le _) (by omega)
    · exact matchAt_of_len_lt (by omega)
  · intro hall j _ _
    exact hall j

theorem hasMatch_iff (pat t : List Char) :
    hasMatch pat t = true ↔ ∃ j, matchAt pat t j = true := by
  simp only [hasMatch, List.any_eq_true, List.mem_range]
  constructor
  · rintro ⟨j, _, hm⟩
    exact ⟨j, hm⟩
  · rintro ⟨j, hm⟩
    refine ⟨j, ?_, hm⟩
    by_contra hj
    rw [matchAt_of_len_lt (by omega)] at hm
    exact Bool.false_ne_true hm

theorem mentionCount_pos_iff (pat t : List Char) :
    0 < mentionCount pat t ↔ ∃ j, matchAt pat t j = true := by
  rw [← hasMatch_iff]
  constructor
  · intro h
    by_contra hnot
    have h0 : mentionCount pat t = 0 := by
      rw [mentionCount_eq_zero_iff]
      intro j
      have := (hasMatch_iff pat t).mpr
      by_contra hj
      exact hnot ((hasMatch_iff pat t).mpr ⟨j, by simpa using hj⟩)
    omega
  · intro h
    rcases (hasMatch_iff pat t).mp h with ⟨j, hm⟩
    by_contra hle
    have h0 : mentionCount pat t = 0 := by omega
    rw [mentionCount_eq_zero_iff] at h0
    rw [h0 j] at hm
    exact Bool.false_ne_true hm

/-! Lemmas about the insertion-ordered counter. -/

theorem pickMax_eq_none_iff {α : Type} (l : List (α × Nat)) : pickMax l = none ↔ l = [] := by
  cases l with
  | nil => simp [pickMax]
  | cons kv rest => simp [pickMax]

theorem pickMax_mem {α : Type} {l : List (α × Nat)} {kv : α × Nat}
    (h : pickMax l = some kv) : kv ∈ l := by
  induction l generalizing kv with
  | nil => simp [pickMax] at h
  | cons hd rest ih =>
    simp only [pickMax, Option.some_inj] at h
    cases hp : pickMax rest with
    | none =>
      rw [hp] at h
      simp only [pickMaxStep] at h
      exact h ▸ List.mem_cons_self _ _
    | some kv2 =>
      rw [hp] at h
      simp only [pickMaxStep] at h
      by_cases h2 : kv2.2 > hd.2
      · rw [if_pos h2] at h
        exact List.mem_cons_of_mem _ (h ▸ ih hp)
      · rw [if_neg h2] at h
        exact h ▸ List.mem_cons_self _ _

theorem pickMax_le {α : Type} {l : List (α × Nat)} {kv : α × Nat}
    (h : pickMax l = some kv) : ∀ e ∈ l, e.2 ≤ kv.2 := by
  induction l generalizing kv with
  | nil => simp [pickMax] at h
  | cons hd rest ih =>
    simp only [pickMax, Option.some_inj] at h
    cases hp : pickMax rest with
    | none =>
      have hrest : rest = [] := (pickMax_eq_none_iff rest).mp hp
      subst hrest
      rw [hp] at h
      simp only [pickMaxStep] at h
      intro e he
      simp only [List.mem_singleton] at he
      subst he
      exact h ▸ Nat.le_refl _
    | some kv2 =>
      rw [hp] at h
      simp only [pickMaxStep] at h
      intro e he
      rcases List.mem_cons.mp he with rfl | he2
      · by_cases h2 : kv2.2 > e.2
        · rw [if_pos h2] at h
          subst h
          exact Nat.le_of_lt h2
        · rw [if_neg h2] at h
          subst h
          exact Nat.le_refl _
      · have hle2 : e.2 ≤ kv2.2 := ih hp e he2
        by_cases h2 : kv2.2 > hd.2
        · rw [if_pos h2] at h
          subst h
          exact hle2
        · rw [if_neg h2] at h
          subst h
          omega

theorem pickMax_first_max {α : Type} {l : List (α × Nat)} {kv : α × Nat}
    (h : pickMax l = some kv) :
    ∃ l1 l2, l = l1 ++ kv :: l2 ∧ ∀ e ∈ l1, e.2 < kv.2 := by
  induction l generalizing kv with
  | nil => simp [pickMax] at h
  | cons hd rest ih =>
    simp only [pickMax, Option.some_inj] at h
    cases hp : pickMax rest with
    | none =>
      rw [hp] at h
      simp only [pickMaxStep] at h
      exact ⟨[], rest, by simp [h], by simp⟩
    | some kv2 =>
      rw [hp] at h
      simp only [pickMaxStep] at h
      by_cases h2 : kv2.2 > hd.2
      · rw [if_pos h2] at h
        subst h
        obtain ⟨r1, r2, hsplit, hlt⟩ := ih hp
        refine ⟨hd :: r1, r2, by simp [hsplit], ?_⟩
        intro e he
        rcases List.mem_cons.mp he with rfl | he2
        · exact h2
        · exact hlt e he2
      · rw [if_neg h2] at h
        subst h
        exact ⟨[], rest, rfl, by simp⟩

theorem pickMax_of_split {α : Type} {l1 l2 : List (α × Nat)} {k : α} {v : Nat}
    (h1 : ∀ e ∈ l1, e.2 < v) (h2 : ∀ e ∈ l2, e.2 ≤ v) :
    pickMax (l1 ++ (k, v) :: l2) = some (k, v) := by
  induction l1 with
  | nil =>
    simp only [List.nil_append, pickMax, Option.some_inj]
    cases hp : pickMax l2 with
    | none => simp [pickMaxStep]
    | some kv2 =>
      have hle : kv2.2 ≤ v := h2 _ (pickMax_mem hp)
      simp only [pickMaxStep]
      rw [if_neg (Nat.not_lt.2 hle)]
  | cons e rest ih =>
    have hrec := ih (fun x hx => h1 x (List.mem_cons_of_mem _ hx))
    have hb : e.2 < v := h1 e (List.mem_cons_self _ _)
    rw [List.cons_append, pickMax, hrec]
    simp only [pickMaxStep]
    rw [if_pos hb]

theorem keysOf_append {α : Type} (l1 l2 : List (α × Nat)) :
    keysOf (l1 ++ l2) = keysOf l1 ++ keysOf l2 := by
  simp [keysOf]

theorem addCount_of_not_mem {α : Type} [DecidableEq α] {l : List (α × Nat)} {k : α}
    (n : Nat) (h : k ∉ keysOf l) : addCount l k n = l ++ [(k, n)] := by
  induction l with
  | nil => rfl
  | cons hd rest ih =>
    obtain ⟨k0, v0⟩ := hd
    simp only [keysOf, List.map_cons, List.mem_cons] at h
    push_neg at h
    simp only [addCount, if_neg (Ne.symm h.1)]
    rw [ih (by simpa [keysOf] using h.2)]
    simp

theorem addCount_split {α : Type} [DecidableEq α] {l : List (α × Nat)} {k : α} (n : Nat)
    (hnd : (keysOf l).Nodup) (hk : k ∈ keysOf l) :
    ∃ l1 v l2, l = l1 ++ (k, v) :: l2 ∧ addCount l k n = l1 ++ (k, v + n) :: l2 ∧
      k ∉ keysOf l1 ∧ k ∉ keysOf l2 := by
  induction l with
  | nil => simp [keysOf] at hk
  | cons hd rest ih =>
    obtain ⟨k0, v0⟩ := hd
    by_cases h : k0 = k
    · subst h
      refine ⟨[], v0, rest, by simp, by simp [addCount], by simp [keysOf], ?_⟩
      simp only [keysOf, List.map_cons, List.nodup_cons] at hnd
      exact hnd.1
    · have hk2 : k ∈ keysOf rest := by
        simp only [keysOf, List.map_cons, List.mem_cons] at hk
        rcases hk with rfl | hk
        · exact absurd rfl h
        · exact hk
      have hnd2 : (keysOf rest).Nodup := by
        simp only [keysOf, List.map_cons, List.nodup_cons] at hnd
        exact hnd.2
      obtain ⟨l1, v, l2, hsplit, hadd, hn1, hn2⟩ := ih hnd2 hk2
      refine ⟨(k0, v0) :: l1, v, l2, by rw [List.cons_append, hsplit], ?_, ?_, hn2⟩
      · simp only [addCount, if_neg h, hadd, List.cons_append]
      · simp only [keysOf, List.map_cons, List.mem_cons]
        push_neg
        exact ⟨fun he => h he.symm, by simpa [keysOf] using hn1⟩

theorem firstIdx_lt_length_of_mem {α : Type} [DecidableEq α] {l : List α} {a : α}
    (h : a ∈ l) : firstIdx l a < l.length := by
  induction l with
  | nil => simp at h
  | cons x xs ih =>
    by_cases hx : x = a
    · simp [firstIdx, hx]
    · have ha : a ∈ xs := by
        rcases List.mem_cons.mp h with rfl | h2
        · exact absurd rfl hx
        · exact h2
      simp only [firstIdx, if_neg hx, List.length_cons]
      exact Nat.succ_lt_succ (ih ha)

theorem firstIdx_append_left {α : Type} [DecidableEq α] {pre : List α} (xs : List α)
    {a : α} (h : a ∈ pre) : firstIdx (pre ++ xs) a = firstIdx pre a := by
  induction pre with
  | nil => simp at h
  | cons x p ih =>
    by_cases hx : x = a
    · simp [firstIdx, hx]
    · have ha : a ∈ p := by
        rcases List.mem_cons.mp h with rfl | h2
        · exact absurd rfl hx
        · exact h2
      rw [List.cons_append]
      simp only [firstIdx, if_neg hx]
      rw [ih ha]

theorem firstIdx_append_right {α : Type} [DecidableEq α] {pre : List α} (xs : List α)
    {a : α} (h : a ∉ pre) : firstIdx (pre ++ xs) a = pre.length + firstIdx xs a := by
  induction pre with
  | nil => simp
  | cons x p ih =>
    have hx : ¬ x = a := fun he => h (he ▸ List.mem_cons_self _ _)
    have ha : a ∉ p := fun hc => h (List.mem_cons_of_mem _ hc)
    rw [List.cons_append]
    simp only [firstIdx, if_neg hx, List.length_cons]
    rw [ih ha]
    omega

theorem firstIdx_cons_self {α : Type} [DecidableEq α] (l : List α) (a : α) :
    firstIdx (a :: l) a = 0 := by
  simp [firstIdx]

theorem pairwise_fst_replace {α : Type} {P : α → α → Prop} {l1 l2 : List (α × Nat)}
    {k : α} {v v' : Nat}
    (h : (l1 ++ (k, v) :: l2).Pairwise (fun e f => P e.1 f.1)) :
    (l1 ++ (k, v') :: l2).Pairwise (fun e f => P e.1 f.1) := by
  rw [List.pairwise_append] at h ⊢
  obtain ⟨h1, h2, h3⟩ := h
  rw [List.pairwise_cons] at h2 ⊢
  refine ⟨h1, ⟨h2.1, h2.2⟩, ?_⟩
  intro a ha b hb
  rcases List.mem_cons.mp hb with rfl | hb2
  · exact h3 a ha (k, v) (List.mem_cons_self _ _)
  · exact h3 a ha b (List.mem_cons_of_mem _ hb2)

/-- Invariant of the `Counter` build loop: processing `xs` after `pre`
keeps keys unique, keeps keys exactly the elements seen, keeps each count
equal to the occurrence count so far, and keeps entries ordered by first
occurrence in the full list. -/
theorem tallyFrom_invariant {α : Type} [DecidableEq α] (nums : List α) :
    ∀ (xs pre : List α) (acc : List (α × Nat)),
      nums = pre ++ xs →
      (keysOf acc).Nodup →
      (∀ k, k ∈ keysOf acc ↔ k ∈ pre) →
      (∀ e ∈ acc, e.2 = pre.count e.1) →
      acc.Pairwise (fun e f => firstIdx nums e.1 < firstIdx nums f.1) →
      (keysOf (tallyFrom acc xs)).Nodup ∧
      (∀ k, k ∈ keysOf (tallyFrom acc xs) ↔ k ∈ nums) ∧
      (∀ e ∈ tallyFrom acc xs, e.2 = nums.count e.1) ∧
      (tallyFrom acc xs).Pairwise (fun e f => firstIdx nums e.1 < firstIdx nums f.1) := by
  intro xs
  induction xs with
  | nil =>
    intro pre acc hnums hnd hkeys hval hpair
    have hpre : nums = pre := by simpa using hnums
    subst hpre
    exact ⟨hnd, hkeys, hval, hpair⟩
  | cons x xs ih =>
    intro pre acc hnums hnd hkeys hval hpair
    have hstep : tallyFrom acc (x :: xs) = tallyFrom (addCount acc x 1) xs := by
      simp [tallyFrom]
    rw [hstep]
    have hnums2 : nums = (pre ++ [x]) ++ xs := by
      rw [hnums, List.append_assoc]
      rfl
    by_cases hx : x ∈ keysOf acc
    · have hxpre : x ∈ pre := (hkeys x).mp hx
      obtain ⟨l1, v, l2, hsp, hadd, hn1, hn2⟩ := addCount_split 1 hnd hx
      have hkeq : keysOf (addCount acc x 1) = keysOf acc := by
        rw [hadd, hsp]
        simp [keysOf]
      refine ih (pre ++ [x]) (addCount acc x 1) hnums2 (hkeq ▸ hnd) ?_ ?_ ?_
      · intro k
        rw [hkeq, hkeys]
        simp only [List.mem_append, List.mem_singleton]
        constructor
        · exact fun h => Or.inl h
        · rintro (h | rfl)
          · exact h
          · exact hxpre
      · intro e he
        rw [hadd] at he
        have hcount_ne : ∀ a, a ≠ x → (pre ++ [x]).count a = pre.count a := by
          intro a hax
          rw [List.count_append]
          have : List.count a [x] = 0 := List.count_eq_zero.2 (by simp [hax])
          omega
        rcases List.mem_append.mp he with he1 | he2
        · have heacc : e ∈ acc := by
            rw [hsp]
            exact List.mem_append.mpr (Or.inl he1)
          have hne : e.1 ≠ x := by
            intro hcon
            exact hn1 (hcon ▸ List.mem_map_of_mem _ he1)
          rw [hcount_ne _ hne]
          exact hval e heacc
        · rcases List.mem_cons.mp he2 with rfl | he3
          · have hvx : v = pre.count x := by
              have : (x, v) ∈ acc := by
                rw [hsp]
                exact List.mem_append.mpr (Or.inr (List.mem_cons_self _ _))
              exact hval (x, v) this
            have : (pre ++ [x]).count x = pre.count x + 1 := by
              rw [List.count_append]
              simp
            simpa [this] using by omega
          · have heacc : e ∈ acc := by
              rw [hsp]
              exact List.mem_append.mpr (Or.inr (List.mem_cons_of_mem _ he3))
            have hne : e.1 ≠ x := by
              intro hcon
              exact hn2 (hcon ▸ List.mem_map_of_mem _ he3)
            rw [hcount_ne _ hne]
            exact hval e heacc
      · rw [hadd]
        rw [hsp] at hpair
        exact @pairwise_fst_replace α (fun a b => firstIdx nums a < firstIdx nums b)
          l1 l2 x v (v + 1) hpair
    · have hxpre : x ∉ pre := fun hc => hx ((hkeys x).mpr hc)
      have hadd : addCount acc x 1 = acc ++ [(x, 1)] := addCount_of_not_mem _ hx
      have hkeq : keysOf (addCount acc x 1) = keysOf acc ++ [x] := by
        rw [hadd, keysOf_append]
        rfl
      refine ih (pre ++ [x]) (addCount acc x 1) hnums2 ?_ ?_ ?_ ?_
      · rw [hkeq]
        rw [List.nodup_append]
        exact ⟨hnd, List.nodup_singleton x, by
          intro a ha hb
          simp only [List.mem_singleton] at hb
          exact hx (hb ▸ ha)⟩
      · intro k
        rw [hkeq]
        simp only [List.mem_append, List.mem_singleton]
        rw [hkeys]
      · intro e he
        rw [hadd] at he
        rcases List.mem_append.mp he with he1 | he2
        · have hne : e.1 ≠ x := by
            intro hcon
            exact hx (hcon ▸ List.mem_map_of_mem _ he1)
          rw [List.count_append]
          have : List.count e.1 [x] = 0 := List.count_eq_zero.2 (by simp [hne])
          rw [this]
          simpa using hval e he1
        · simp only [List.mem_singleton] at he2
          subst he2
          rw [List.count_append]
          have h0 : pre.count x = 0 := List.count_eq_zero.2 hxpre
          simp [h0]
      · rw [hadd]
        rw [List.pairwise_append]
        refine ⟨hpair, List.pairwise_singleton _ _, ?_⟩
        intro a ha b hb
        simp only [List.mem_singleton] at hb
        subst hb
        have ha1 : a.1 ∈ pre := (hkeys a.1).mp (List.mem_map_of_mem _ ha)
        have hlt : firstIdx nums a.1 < pre.length := by
          rw [hnums, firstIdx_append_left _ ha1]
          exact firstIdx_lt_length_of_mem ha1
        have hxi : firstIdx nums x = pre.length := by
          rw [hnums, firstIdx_append_right _ hxpre, firstIdx_cons_self]
          omega
        simp only [hxi]
        exact hlt

theorem tally_spec {α : Type} [DecidableEq α] (nums : List α) :
    (keysOf (tally nums)).Nodup ∧ (∀ k, k ∈ keysOf (tally nums) ↔ k ∈ nums) ∧
    (∀ e ∈ tally nums, e.2 = nums.count e.1) ∧
    (tally nums).Pairwise (fun e f => firstIdx nums e.1 < firstIdx nums f.1) :=
  tallyFrom_invariant nums nums [] [] (by simp) (by simp [keysOf]) (by simp [keysOf])
    (by simp) (by simp)

/-- What `Counter(nums).most_common(1)[0]` returns: an element of `nums`
of maximal multiplicity whose first occurrence is earliest among the
maximal ones. -/
theorem pickMax_tally_spec {α : Type} [DecidableEq α] {nums : List α} {kv : α × Nat}
    (h : pickMax (tally nums) = some kv) :
    kv.1 ∈ nums ∧ kv.2 = nums.count kv.1 ∧
    (∀ m ∈ nums, nums.count m ≤ nums.count kv.1) ∧
    (∀ m ∈ nums, nums.count m = nums.count kv.1 → firstIdx nums kv.1 ≤ firstIdx nums m) := by
  obtain ⟨hnd, hkeys, hval, hpair⟩ := tally_spec nums
  have hmem := pickMax_mem h
  have hk1 : kv.1 ∈ nums := (hkeys kv.1).mp (List.mem_map_of_mem _ hmem)
  have hv : kv.2 = nums.count kv.1 := hval kv hmem
  have hentry : ∀ m ∈ nums, ∃ e ∈ tally nums, e.1 = m ∧ e.2 = nums.count m := by
    intro m hm
    rcases List.mem_map.1 ((hkeys m).mpr hm) with ⟨e, he, hem⟩
    exact ⟨e, he, hem, hem ▸ hval e he⟩
  refine ⟨hk1, hv, ?_, ?_⟩
  · intro m hm
    obtain ⟨e, he, he1, he2⟩ := hentry m hm
    have := pickMax_le h e he
    omega
  · intro m hm hcnt
    obtain ⟨e, he, he1, he2⟩ := hentry m hm
    obtain ⟨l1, l2, hsplit, hl1⟩ := pickMax_first_max h
    rw [hsplit] at he
    rcases List.mem_append.mp he with hin1 | hin2
    · exfalso
      have := hl1 e hin1
      omega
    · rcases List.mem_cons.mp hin2 with rfl | hin3
      · rw [he1]
      · rw [hsplit] at hpair
        rw [List.pairwise_append] at hpair
        have hmid := hpair.2.1
        rw [List.pairwise_cons] at hmid
        have := hmid.1 e hin3
        rw [he1] at this
        exact Nat.le_of_lt this

theorem addCount_ne_nil {α : Type} [DecidableEq α] (l : List (α × Nat)) (k : α) (n : Nat) :
    addCount l k n ≠ [] := by
  cases l with
  | nil => simp [addCount]
  | cons hd rest =>
    obtain ⟨k0, v0⟩ := hd
    simp only [addCount]
    split <;> simp

theorem keysOf_addCount_subset {α : Type} [DecidableEq α] {l : List (α × Nat)} {k a : α}
    {n : Nat} (h : a ∈ keysOf (addCount l k n)) : a ∈ keysOf l ∨ a = k := by
  induction l with
  | nil =>
    simp only [addCount, keysOf, List.map_cons, List.map_nil, List.mem_singleton] at h
    exact Or.inr h
  | cons hd rest ih =>
    obtain ⟨k0, v0⟩ := hd
    simp only [addCount] at h
    by_cases he : k0 = k
    · rw [if_pos he] at h
      simp only [keysOf, List.map_cons, List.mem_cons] at h ⊢
      tauto
    · rw [if_neg he] at h
      simp only [keysOf, List.map_cons, List.mem_cons] at h ⊢
      rcases h with rfl | h2
      · exact Or.inl (Or.inl rfl)
      · rcases ih h2 with h3 | h3
        · exact Or.inl (Or.inr h3)
        · exact Or.inr h3

theorem buildCounts_go_eq_nil_iff (t : List Char) :
    ∀ (cs : List String) (acc : List (String × Nat)),
      (cs.foldl (buildCountsStep t) acc = [] ↔
        acc = [] ∧ ∀ c ∈ cs, mentionCount (strLower c.data) t = 0) := by
  intro cs
  induction cs with
  | nil => simp
  | cons c cs ih =>
    intro acc
    rw [List.foldl_cons]
    by_cases hc : 0 < mentionCount (strLower c.data) t
    · have hstep : buildCountsStep t acc c = addCount acc c (mentionCount (strLower c.data) t) := by
        simp [buildCountsStep, hc]
      rw [hstep, ih]
      constructor
      · intro hcon
        exact absurd hcon.1 (addCount_ne_nil _ _ _)
      · rintro ⟨_, hall⟩
        have := hall c (List.mem_cons_self _ _)
        omega
    · have hstep : buildCountsStep t acc c = acc := by
        simp [buildCountsStep, hc]
      rw [hstep, ih]
      constructor
      · rintro ⟨h1, h2⟩
        refine ⟨h1, ?_⟩
        intro c2 hc2
        rcases List.mem_cons.mp hc2 with rfl | hc3
        · omega
        · exact h2 c2 hc3
      · rintro ⟨h1, h2⟩
        exact ⟨h1, fun c2 hc2 => h2 c2 (List.mem_cons_of_mem _ hc2)⟩

theorem buildCounts_eq_nil_iff (countries : List String) (t : List Char) :
    buildCounts countries t = [] ↔
      ∀ c ∈ countries, mentionCount (strLower c.data) t = 0 := by
  rw [buildCounts, buildCounts_go_eq_nil_iff]
  simp

theorem keysOf_buildCounts_go_mem (t : List Char) :
    ∀ (cs : List String) (acc : List (String × Nat)) (k : String),
      k ∈ keysOf (cs.foldl (buildCountsStep t) acc) → k ∈ keysOf acc ∨ k ∈ cs := by
  intro cs
  induction cs with
  | nil =>
    intro acc k h
    exact Or.inl h
  | cons c cs ih =>
    intro acc k h
    rw [List.foldl_cons] at h
    rcases ih _ k h with h1 | h1
    · by_cases hc : 0 < mentionCount (strLower c.data) t
      · rw [show buildCountsStep t acc c = addCount acc c (mentionCount (strLower c.data) t)
          from by simp [buildCountsStep, hc]] at h1
        rcases keysOf_addCount_subset h1 with h2 | h2
        · exact Or.inl h2
        · exact Or.inr (h2 ▸ List.mem_cons_self _ _)
      · rw [show buildCountsStep t acc c = acc from by simp [buildCountsStep, hc]] at h1
        exact Or.inl h1
    · exact Or.inr (List.mem_cons_of_mem _ h1)

theorem keysOf_buildCounts_mem {countries : List String} {t : List Char} {k : String}
    (h : k ∈ keysOf (buildCounts countries t)) : k ∈ countries := by
  rcases keysOf_buildCounts_go_mem t countries [] k h with h1 | h1
  · simp [keysOf] at h1
  · exact h1

theorem buildCounts_go_eq_filterMap (t : List Char) :
    ∀ (cs : List String) (acc : List (String × Nat)),
      cs.Nodup → (∀ c ∈ cs, c ∉ keysOf acc) →
      cs.foldl (buildCountsStep t) acc = acc ++ cs.filterMap
        (fun c => if 0 < mentionCount (strLower c.data) t then
          some (c, mentionCount (strLower c.data) t) else none) := by
  intro cs
  induction cs with
  | nil => simp
  | cons c cs ih =>
    intro acc hnd hdisj
    rw [List.foldl_cons, List.filterMap_cons]
    have hcacc : c ∉ keysOf acc := hdisj c (List.mem_cons_self _ _)
    rw [List.nodup_cons] at hnd
    by_cases hc : 0 < mentionCount (strLower c.data) t
    · have hstep : buildCountsStep t acc c = acc ++ [(c, mentionCount (strLower c.data) t)] := by
        simp only [buildCountsStep, if_pos hc]
        exact addCount_of_not_mem _ hcacc
      rw [hstep, if_pos hc]
      rw [ih (acc ++ [(c, mentionCount (strLower c.data) t)]) hnd.2 ?_]
      · rw [List.append_assoc]
        rfl
      · intro c2 hc2
        rw [keysOf_append]
        simp only [List.mem_append, keysOf, List.map_cons, List.map_nil, List.mem_singleton]
        push_neg
        exact ⟨fun hcon => by simpa [keysOf] using
          (hdisj c2 (List.mem_cons_of_mem _ hc2)) hcon, fun hcon => hnd.1 (hcon ▸ hc2)⟩
    · have hstep : buildCountsStep t acc c = acc := by
        simp [buildCountsStep, hc]
      rw [hstep, if_neg hc]
      exact ih acc hnd.2 (fun c2 hc2 => hdisj c2 (List.mem_cons_of_mem _ hc2))

theorem buildCounts_eq_filterMap {countries : List String} {t : List Char}
    (hnd : countries.Nodup) :
    buildCounts countries t = countries.filterMap
      (fun c => if 0 < mentionCount (strLower c.data) t then
        some (c, mentionCount (strLower c.data) t) else none) := by
  rw [buildCounts, buildCounts_go_eq_filterMap t countries [] hnd (by simp [keysOf])]
  rfl

/-! Helper lemmas about the country-resolution stages. -/

theorem stage1Marker_mem {ner : String → Option String} {info : List (String × String)}
    {cs : List String} {m c : String} (h : stage1Marker ner info cs m = some c) :
    c ∈ cs := by
  unfold stage1Marker at h
  split at h
  · exact absurd h (by simp)
  · split at h
    · exact absurd h (by simp)
    · split at h
      · rename_i hm
        simp only [Option.some_inj] at h
        exact h ▸ hm
      · exact absurd h (by simp)

theorem stage1_mem {ner : String → Option String} {info : List (String × String)}
    {cs : List String} {c : String} (h : stage1 ner info cs = some c) : c ∈ cs := by
  unfold stage1 at h
  split at h
  · rename_i c1 h1
    simp only [Option.some_inj] at h
    exact h ▸ stage1Marker_mem h1
  · exact stage1Marker_mem h

theorem stage3Go_mem {dem : List (String × String)} {cs : List String} {t : List Char}
    {c : String} : ∀ {l : List (String × String)},
    stage3Go dem cs t l = some c → c ∈ cs := by
  intro l
  induction l with
  | nil => intro h; simp [stage3Go] at h
  | cons kv rest ih =>
    obtain ⟨k, v⟩ := kv
    intro h
    simp only [stage3Go] at h
    split at h
    · split at h
      · split at h
        · rename_i h3
          simp only [Option.some_inj] at h
          exact h ▸ h3
        · exact ih h
      · exact ih h
    · exact ih h

theorem stage3_mem {dem : List (String × String)} {cs : List String} {t : List Char}
    {c : String} (h : stage3 dem cs t = some c) : c ∈ cs :=
  stage3Go_mem h

theorem stage4_mem {cs : List String} {t : List Char} {c : String}
    (h : stage4 cs t = some c) : c ∈ cs := by
  unfold stage4 at h
  exact List.mem_of_find?_eq_some h

theorem stage4_match_of_eq {cs : List String} {t : List Char} {c : String}
    (h : stage4 cs t = some c) : stage4Match (strLower c.data) t = true := by
  unfold stage4 at h
  have h2 := List.find?_some h
  simpa using h2

/-- Claim C3: for every input (named-entity recogniser, company name,
allow-list, profile fields, demonym table and search outcome),
`find_country_of_origin` returns either the empty string or a member of
the allow-list: every stage gates its candidate on allow-list membership
(stages 1-3 explicitly, stage 4 by drawing candidates from the list), and
all failure paths return the empty string. -/
theorem find_country_allowlist_closed (ner : String → Option String) (company : String)
    (african_countries : List String) (company_info : List (String × String))
    (african_demonyms : List (String × String)) (search : Except String (List Char)) :
    find_country_of_origin ner company african_countries company_info african_demonyms
      search = "" ∨
    find_country_of_origin ner company african_countries company_info african_demonyms
      search ∈ african_countries := by
  unfold find_country_of_origin
  split
  · rename_i c1 h1
    exact Or.inr (stage1_mem h1)
  · split
    · exact Or.inl rfl
    · rename_i raw
      simp only []
      split
    
      · rename_i h2
        exact Or.inr h2
      · split
        · rename_i c3 h3
          exact Or.inr (stage3_mem h3)
        · split
          · rename_i c4 h4
            exact Or.inr (stage4_mem h4)
          · exact Or.inl rfl

/-- Claim C1: in the orchestrator result collection, a wiki or stats task
failure leaves only that section absent and the call still returns a
record when the country task returned a non-empty country; a country task
failure, or an empty country result, fails the whole call and no record is
returned. -/
theorem orchestrator_failure_policy (company : String)
    (wiki : Except String WikiResult) (stats : Except String StatsResult)
    (c : String) (hc : c ≠ "") :
    (∃ info, information_scrapper_collect company wiki stats (.ok c) = .ok info ∧
      info.country = some c ∧
      (∀ e, wiki = .error e → info.company = company ∧ info.company_info = none ∧
        info.description = none) ∧
      (∀ n ci d, wiki = .ok (n, ci, d) → info.company = n ∧ info.company_info = some ci ∧
        info.description = some d) ∧
      (∀ e, stats = .error e → info.competitors = none ∧ info.funding = none ∧
        info.company_info_fixed = none) ∧
      (∀ comp fund cid, stats = .ok (comp, fund, cid) → info.competitors = some comp ∧
        info.funding = some fund ∧ info.company_info_fixed = some cid)) ∧
    (∀ e, ∃ e2, information_scrapper_collect company wiki stats (.error e) = .error e2) ∧
    (∃ e2, information_scrapper_collect company wiki stats (.ok "") = .error e2) := by
  refine ⟨?_, fun e => ⟨_, rfl⟩, ⟨_, rfl⟩⟩
  have hcol : information_scrapper_collect company wiki stats (.ok c) =
      .ok { processStats (processWiki { company := company } wiki) stats with
            country := some c } := by
    unfold information_scrapper_collect processCountry
    simp only [if_neg hc]
  refine ⟨_, hcol, rfl, ?_, ?_, ?_, ?_⟩
  · intro e he
    subst he
    cases stats with
    | error es => exact ⟨rfl, rfl, rfl⟩
    | ok s =>
      obtain ⟨comp, fund, cid⟩ := s
      exact ⟨rfl, rfl, rfl⟩
  · intro n ci d hw
    subst hw
    cases stats with
    | error es => exact ⟨rfl, rfl, rfl⟩
    | ok s =>
      obtain ⟨comp, fund, cid⟩ := s
      exact ⟨rfl, rfl, rfl⟩
  · intro e he
    subst he
    cases wiki with
    | error ew => exact ⟨rfl, rfl, rfl⟩
    | ok w =>
      obtain ⟨n, ci, d⟩ := w
      exact ⟨rfl, rfl, rfl⟩
  · intro comp fund cid hs
    subst hs
    cases wiki with
    | error ew => exact ⟨rfl, rfl, rfl⟩
    | ok w =>
      obtain ⟨n, ci, d⟩ := w
      exact ⟨rfl, rfl, rfl⟩

theorem orchestrator_failure_policy_witness :
    ∃ info, information_scrapper_collect ("Acme") (.error ("wiki down"))
        (.error ("stats down")) (.ok ("Nigeria")) = .ok info ∧
      info.country = some ("Nigeria") ∧ info.company = ("Acme") ∧
      info.company_info = none ∧ info.description = none ∧
      info.competitors = none ∧ info.funding = none ∧ info.company_info_fixed = none := by
  obtain ⟨⟨info, h1, h2, h3, _, h5, _⟩, _, _⟩ :=
    orchestrator_failure_policy ("Acme") (.error ("wiki down")) (.error ("stats down"))
      ("Nigeria") (by decide)
  obtain ⟨ha, hb, hcc⟩ := h3 _ rfl
  obtain ⟨hd, he, hf⟩ := h5 _ rfl
  exact ⟨info, h1, h2, ha, hb, hcc, hd, he, hf⟩

/-- Claim C2: every submitted task calls its target with one extra
positional argument (wiki and stats get 2 arguments against 1 parameter,
country gets 5 against 4), so all three tasks raise TypeError, and since
the country failure is fatal `information_scrapper` always raises and
never returns a record, for every company and whatever the (unreached)
task bodies would have produced. -/
theorem information_scrapper_always_fails (company : String)
    (wikiBody : Except String WikiResult) (statsBody : Except String StatsResult)
    (countryBody : Except String String) :
    (∃ e, pythonPositionalCall get_wiki_link_paramCount 2 wikiBody
        = (.error e : Except String WikiResult)) ∧
    (∃ e, pythonPositionalCall get_company_stats_paramCount 2 statsBody
        = (.error e : Except String StatsResult)) ∧
    (∃ e, pythonPositionalCall find_country_of_origin_paramCount 5 countryBody
        = (.error e : Except String String)) ∧
    (∃ e, information_scrapper company wikiBody statsBody countryBody = .error e) := by
  exact ⟨⟨_, rfl⟩, ⟨_, rfl⟩, ⟨_, rfl⟩, ⟨_, rfl⟩⟩

/-! Helper lemmas for table parsing. -/

theorem appendRowCells_short : ∀ (d : List (String × List String)) (hs row : List String),
    row.length < hs.length →
    appendRowCells d hs row = .error ("IndexError: list index out of range") := by
  intro d hs
  induction hs generalizing d with
  | nil =>
    intro row h
    simp at h
  | cons h0 hs ih =>
    intro row hlt
    cases row with
    | nil => rfl
    | cons x xs =>
      simp only [List.length_cons] at hlt
      exact ih _ xs (by omega)

theorem appendRowCells_ok : ∀ (d : List (String × List String)) (hs row : List String),
    hs.length ≤ row.length → ∃ d2, appendRowCells d hs row = .ok d2 := by
  intro d hs
  induction hs generalizing d with
  | nil =>
    intro row _
    exact ⟨d, rfl⟩
  | cons h0 hs ih =>
    intro row hle
    cases row with
    | nil => simp at hle
    | cons x xs =>
      simp only [List.length_cons] at hle
      exact ih _ xs (by omega)

/-- Claim C6 counterexample: a two-column header with a one-cell body row
makes `extract_table_data` raise IndexError instead of padding or skipping
the short row, so the parser is not total on short rows. -/
theorem extract_table_data_short_row_cex :
    extract_table_data ⟨[("A"), ("B")], [[("x")]]⟩ =
      .error ("IndexError: list index out of range") := by
  rfl

/-- Claim C6 amended: for every table whose header has H columns and that
contains a body row with fewer than H cells, `extract_table_data` raises
an index-out-of-range error (the callers in `get_company_stats` catch it
and degrade the whole table to an empty dictionary); short rows are
neither padded nor skipped. -/
theorem extract_table_data_short_row_raises (tbl : HTMLTable)
    (h : ∃ row ∈ tbl.rows, row.length < tbl.header.length) :
    ∃ e, extract_table_data tbl = .error e := by
  obtain ⟨header, rows⟩ := tbl
  simp only [extract_table_data] at h ⊢
  revert h
  generalize initTableDict header = d0
  induction rows generalizing d0 with
  | nil =>
    rintro ⟨row, hmem, _⟩
    simp at hmem
  | cons r rs ih =>
    rintro ⟨row, hmem, hlen⟩
    rw [List.foldlM_cons]
    by_cases hr : r.length < header.length
    · rw [appendRowCells_short d0 header r hr]
      exact ⟨_, rfl⟩
    · obtain ⟨d2, hok⟩ := appendRowCells_ok d0 header r (by omega)
      rw [hok]
      have hrest : ∃ row ∈ rs, row.length < header.length := by
        rcases List.mem_cons.mp hmem with rfl | h2
        · omega
        · exact ⟨row, h2, hlen⟩
      exact ih d2 hrest

theorem extract_table_data_short_row_raises_witness :
    (∃ row ∈ ([[("x")], [("p"), ("q")]] : List (List String)),
      row.length < ([("A"), ("B")] : List String).length) ∧
    ∃ e, extract_table_data ⟨[("A"), ("B")], [[("x")], [("p"), ("q")]]⟩ = .error e :=
  ⟨⟨[("x")], by simp, by simp⟩,
   extract_table_data_short_row_raises ⟨[("A"), ("B")], [[("x")], [("p"), ("q")]]⟩
     ⟨[("x")], by simp, by simp⟩⟩

/-- Claim C10: when the request reaches fresh scraping (non-blank name, no
cache hit, no stored record) and country resolution raises or returns the
empty string, the endpoint returns an error response and the durable store
and the cache are left exactly unchanged: the insert and cache write occur
only after a non-empty country and successful stats. -/
theorem get_information_country_failure_no_persist (st : AppState) (now company : String)
    (wiki : Except String WikiResult) (countryRes : Except String String)
    (stats : Except String StatsResult)
    (h1 : pyStripString company ≠ "")
    (h2 : cacheLookup st.cache (pyStripString company) = none)
    (h3 : dbFindCaseInsensitive st.companies (pyStripString company) = none)
    (h4 : countryRes = .ok "" ∨ ∃ e, countryRes = .error e) :
    ∃ code msg, get_information st now company wiki countryRes stats =
      (.err code msg, st) := by
  unfold get_information
  rw [if_neg h1]
  rw [h2, h3]
  rcases h4 with rfl | ⟨e, rfl⟩
  · exact ⟨_, _, rfl⟩
  · exact ⟨_, _, rfl⟩

theorem get_information_country_failure_no_persist_witness :
    ∃ code msg,
      get_information ⟨[], []⟩ ("t0") ("Acme") (.error ("wiki down")) (.ok (""))
        (.error ("stats down")) = (.err code msg, ⟨[], []⟩) :=
  get_information_country_failure_no_persist ⟨[], []⟩ ("t0") ("Acme")
    (.error ("wiki down")) (.ok ("")) (.error ("stats down"))
    (by decide) rfl rfl (Or.inl rfl)

/-! Helper lemmas for the mention-frequency stage and the stage-4 regex. -/

theorem extract_eq_of_pickMax {full_text : List Char} {countries : List String}
    {c : String} {n : Nat}
    (h : pickMax (buildCounts countries (strLower full_text)) = some (c, n)) :
    extract_most_mentioned_country full_text countries = c := by
  simp only [extract_most_mentioned_country, h]

theorem extract_eq_empty_of_no_mentions {full_text : List Char} {countries : List String}
    (h : ∀ c ∈ countries, mentionCount (strLower c.data) (strLower full_text) = 0) :
    extract_most_mentioned_country full_text countries = "" := by
  have hb : buildCounts countries (strLower full_text) = [] :=
    (buildCounts_eq_nil_iff countries (strLower full_text)).mpr h
  simp [extract_most_mentioned_country, hb, pickMax]

theorem extract_empty_no_mentions {countries : List String} {full_text : List Char}
    (hne : ("" : String) ∉ countries)
    (h : extract_most_mentioned_country full_text countries = "") :
    ∀ c ∈ countries, mentionCount (strLower c.data) (strLower full_text) = 0 := by
  simp only [extract_most_mentioned_country] at h
  split at h
  · rename_i kv hp
    exfalso
    have hk : kv.1 ∈ keysOf (buildCounts countries (strLower full_text)) :=
      List.mem_map_of_mem _ (pickMax_mem hp)
    exact hne (h ▸ keysOf_buildCounts_mem hk)
  · rename_i hp
    exact (buildCounts_eq_nil_iff countries (strLower full_text)).mp
      ((pickMax_eq_none_iff _).mp hp)

/-- Claim C4: over every case-folded text and duplicate-free allow-list of
(non-empty) country names, `extract_most_mentioned_country` returns the
empty string exactly when no allow-listed country has a word-boundary
match, and returns the country with the strictly highest word-boundary
mention count whenever such a strict winner with at least one mention
exists. -/
theorem extract_most_mentioned_country_spec (full_text : List Char)
    (african_countries : List String) (hnd : african_countries.Nodup)
    (hne : ("" : String) ∉ african_countries) :
    (extract_most_mentioned_country full_text african_countries = "" ↔
      ∀ c ∈ african_countries,
        ¬ ∃ j, matchAt (strLower c.data) (strLower full_text) j = true) ∧
    (∀ c ∈ african_countries,
      0 < mentionCount (strLower c.data) (strLower full_text) →
      (∀ c2 ∈ african_countries, c2 ≠ c →
        mentionCount (strLower c2.data) (strLower full_text) <
          mentionCount (strLower c.data) (strLower full_text)) →
      extract_most_mentioned_country full_text african_countries = c) := by
  constructor
  · constructor
    · intro h c hc
      have h0 := extract_empty_no_mentions hne h c hc
      rw [mentionCount_eq_zero_iff] at h0
      rintro ⟨j, hj⟩
      rw [h0 j] at hj
      exact Bool.false_ne_true hj
    · intro hall
      apply extract_eq_empty_of_no_mentions
      intro c hc
      rw [mentionCount_eq_zero_iff]
      intro j
      by_contra hj
      exact hall c hc ⟨j, by simpa using hj⟩
  · intro c hc hpos hstrict
    obtain ⟨d1, d2, hsplit⟩ := List.append_of_mem hc
    have hnd2 := hsplit ▸ hnd
    have hnm1 : c ∉ d1 := by
      intro hcon
      rcases List.nodup_append.mp hnd2 with ⟨_, _, hdisj⟩
      exact hdisj hcon (List.mem_cons_self _ _)
    have hnm2 : c ∉ d2 := by
      rcases List.nodup_append.mp hnd2 with ⟨_, hnd3, _⟩
      exact (List.nodup_cons.mp hnd3).1
    have hpick : pickMax (buildCounts african_countries (strLower full_text)) =
        some (c, mentionCount (strLower c.data) (strLower full_text)) := by
      rw [buildCounts_eq_filterMap hnd, hsplit, List.filterMap_append,
        List.filterMap_cons, if_pos hpos]
      apply pickMax_of_split
      · intro e he
        rcases List.mem_filterMap.1 he with ⟨c2, hc2, hf⟩
        by_cases hp2 : 0 < mentionCount (strLower c2.data) (strLower full_text)
        · rw [if_pos hp2] at hf
          have he2 : e = (c2, mentionCount (strLower c2.data) (strLower full_text)) :=
            (Option.some_inj.mp hf).symm
          rw [he2]
          exact hstrict c2 (hsplit ▸ List.mem_append_left _ hc2)
            (fun hcon => hnm1 (hcon ▸ hc2))
        · rw [if_neg hp2] at hf
          simp at hf
      · intro e he
        rcases List.mem_filterMap.1 he with ⟨c2, hc2, hf⟩
        by_cases hp2 : 0 < mentionCount (strLower c2.data) (strLower full_text)
        · rw [if_pos hp2] at hf
          have he2 : e = (c2, mentionCount (strLower c2.data) (strLower full_text)) :=
            (Option.some_inj.mp hf).symm
          rw [he2]
          exact Nat.le_of_lt (hstrict c2
            (hsplit ▸ List.mem_append_right _ (List.mem_cons_of_mem _ hc2))
            (fun hcon => hnm2 (hcon ▸ hc2)))
        · rw [if_neg hp2] at hf
          simp at hf
    exact extract_eq_of_pickMax hpick

theorem extract_most_mentioned_country_spec_witness :
    extract_most_mentioned_country (("nigeria nigeria kenya").data)
      [("Kenya"), ("Nigeria")] = ("Nigeria") := by
  have h := (extract_most_mentioned_country_spec (("nigeria nigeria kenya").data)
    [("Kenya"), ("Nigeria")] (by decide) (by decide)).2
  exact h ("Nigeria") (by decide) (by decide) (by decide)

theorem isPrefixOf_length {p l : List Char} (h : p.isPrefixOf l = true) :
    p.length ≤ l.length := by
  induction p generalizing l with
  | nil => simp
  | cons a as ih =>
    cases l with
    | nil => simp at h
    | cons b bs =>
      rw [List.isPrefixOf_cons₂, Bool.and_eq_true] at h
      simpa using ih h.2

theorem litAt_head {t : List Char} {j : Nat} {ch : Char} {cs : List Char}
    (h : litAt t j (ch :: cs) = true) : j < t.length ∧ charAt t j = ch := by
  unfold litAt at h
  cases hd : t.drop j with
  | nil => rw [hd] at h; simp at h
  | cons y ys =>
    rw [hd] at h
    rw [List.isPrefixOf_cons₂, Bool.and_eq_true] at h
    have hy : ch = y := by simpa using h.1
    have hlen : t.length - j = ys.length + 1 := by
      have := congrArg List.length hd
      simpa [List.length_drop] using this
    have hjlt : j < t.length := by omega
    refine ⟨hjlt, ?_⟩
    have h0 : t[j]? = some y := by
      have h2 := (List.getElem?_drop t j 0).symm
      rw [hd] at h2
      simpa using h2
    rw [charAt, List.getD_eq_getElem?_getD, h0, hy]
    rfl

theorem not_word_of_pySpace {ch : Char} (h : isPySpace ch = true) :
    isWordChar ch = false := by
  have hm : ch ∈ pySpaceChars := by simpa [isPySpace] using h
  have hall : ∀ c ∈ pySpaceChars, isWordChar c = false := by decide
  exact hall ch hm

theorem spacesFromTo_bounds {t : List Char} {i j : Nat} (h : spacesFromTo t i j = true) :
    i ≤ j ∧ j ≤ t.length := by
  simp only [spacesFromTo, Bool.and_eq_true, decide_eq_true_eq] at h
  exact ⟨h.1.1, h.1.2⟩

theorem spacesFromTo_space_at {t : List Char} {i j : Nat} (h : spacesFromTo t i j = true)
    {k : Nat} (hk1 : i ≤ k) (hk2 : k < j) : isPySpace (charAt t k) = true := by
  simp only [spacesFromTo, Bool.and_eq_true, decide_eq_true_eq, List.all_eq_true,
    List.mem_range] at h
  have := h.2 (k - i) (by omega)
  have hik : i + (k - i) = k := by omega
  rwa [hik] at this

/-- With stage 2 having found nothing (so in particular no word-boundary
occurrence of the country exists), a bare stage-4 match (context group
empty) collapses to a word-boundary match of the country itself: the
optional whitespace ends right before the country, whose first character
is a word character. -/
theorem bareMatch_analysis {c t : List Char} {i j : Nat}
    (hc : c ≠ []) (hw : isWordChar (c.headD (Char.ofNat 32)) = true)
    (hb : bareMatchFrom c t i j = true) : matchAt c t j = true := by
  simp only [bareMatchFrom, Bool.and_eq_true] at hb
  obtain ⟨⟨⟨hbi, hsp⟩, hlit⟩, hbe⟩ := hb
  obtain ⟨hij, hjlen⟩ := spacesFromTo_bounds hsp
  rcases Nat.eq_or_lt_of_le hij with rfl | hlt
  · simp [matchAt, hbi, hlit, hbe]
  · obtain ⟨ch, cs, rfl⟩ : ∃ ch cs, c = ch :: cs := by
      cases c with
      | nil => exact absurd rfl hc
      | cons ch cs => exact ⟨ch, cs, rfl⟩
    obtain ⟨hjlt, hcharj⟩ := litAt_head hlit
    have hsp1 : isPySpace (charAt t (j - 1)) = true :=
      spacesFromTo_space_at hsp (by omega) (by omega)
    have hw1 : wordAt t (j - 1) = false := by
      unfold wordAt
      rw [not_word_of_pySpace hsp1]
      simp
    have hwj : wordAt t j = true := by
      unfold wordAt
      rw [hcharj, decide_eq_true hjlt]
      simpa using hw
    have hbj : boundaryAt t j = true := by
      unfold boundaryAt
      rw [if_neg (by omega : ¬ j = 0), hw1, hwj]
      rfl
    simp only [List.length_cons] at hbe
    simp [matchAt, hbj, hlit, hbe]

theorem stage4Match_cases {c t : List Char}
    (hc : c ≠ []) (hw : isWordChar (c.headD (Char.ofNat 32)) = true)
    (hm : stage4Match c t = true) :
    hasCtxOccurrence c t = true ∨ ∃ j, matchAt c t j = true := by
  simp only [stage4Match, List.any_eq_true, List.mem_range] at hm
  obtain ⟨i, hi, j, hj, hor⟩ := hm
  have hor2 : ctxMatchFrom c t i j = true ∨ bareMatchFrom c t i j = true := by
    simpa using hor
  rcases hor2 with hctx | hbare
  · left
    simp only [hasCtxOccurrence, List.any_eq_true, List.mem_range]
    exact ⟨i, hi, j, hj, hctx⟩
  · right
    exact ⟨j, bareMatch_analysis hc hw hbare⟩

/-- Claim C5: when stages 1-3 yield nothing and no contextual word
(in/from/based in/located in/headquartered in/a/an, possibly with
trailing whitespace) immediately precedes the country name anywhere in
the text, stage 4 does not return that country: although the context
group in the stage-4 pattern is syntactically optional, a group-empty
match would entail a word-boundary occurrence of the country, which the
emptiness of stage 2 excludes.  Stated for any country name that is
non-empty and starts with a word character after case folding. -/
theorem stage4_contextual_only
    (ner : String → Option String) (company : String)
    (african_countries : List String) (company_info : List (String × String))
    (african_demonyms : List (String × String)) (raw : List Char) (c : String)
    (hcne : strLower c.data ≠ [])
    (hcw : isWordChar ((strLower c.data).headD (Char.ofNat 32)) = true)
    (h1 : stage1 ner company_info african_countries = none)
    (h2 : extract_most_mentioned_country (strLower raw) african_countries = "")
    (h3 : stage3 african_demonyms african_countries (strLower raw) = none)
    (h4 : hasCtxOccurrence (strLower c.data) (strLower raw) = false) :
    find_country_of_origin ner company african_countries company_info african_demonyms
      (.ok raw) ≠ c := by
  have hcs : c ≠ "" := by
    intro hcon
    apply hcne
    rw [hcon]
    rfl
  simp only [find_country_of_origin, h1, h2]
  by_cases hgate : ("" : String) ∈ african_countries
  · rw [if_pos hgate]
    exact fun hcon => hcs hcon.symm
  · rw [if_neg hgate]
    simp only [h3]
    cases h5 : stage4 african_countries (strLower raw) with
    | none =>
      simp only [h5]
      exact fun hcon => hcs hcon.symm
    | some c4 =>
      simp only [h5]
      intro hcon
      have h5c : stage4 african_countries (strLower raw) = some c := by rw [h5, hcon]
      have hmatch := stage4_match_of_eq h5c
      have hcmem := stage4_mem h5c
      rcases stage4Match_cases hcne hcw hmatch with hctx | ⟨j, hj⟩
      · rw [hctx] at h4
        exact Bool.false_ne_true h4.symm
      · have h0 := extract_empty_no_mentions hgate h2 c hcmem
        rw [strLower_idem] at h0
        rw [mentionCount_eq_zero_iff] at h0
        rw [h0 j] at hj
        exact Bool.false_ne_true hj

theorem stage4_contextual_only_witness :
    find_country_of_origin (fun _ => none) ("Acme") [("Kenya")] [] []
      (.ok (("w xkenya z").data)) ≠ ("Kenya") := by
  apply stage4_contextual_only
  · decide
  · decide
  · rfl
  · decide
  · rfl
  · decide

/-! Helper lemmas for the section-label scan of `extract_company_details`. -/

theorem dictLookup_dictSet_self {β : Type} (d : List (String × β)) (k : String) (v : β) :
    dictLookup (dictSet d k v) k = some v := by
  induction d with
  | nil => simp [dictSet, dictLookup]
  | cons hd rest ih =>
    obtain ⟨k0, v0⟩ := hd
    by_cases h : k0 = k
    · simp [dictSet, dictLookup, h]
    · simp only [dictSet, if_neg h]
      simp only [dictLookup, List.find?_cons]
      rw [show ((k0, v0).1 == k) = false from by simpa using h]
      exact ih

theorem dictLookup_dictSet_other {β : Type} (d : List (String × β)) (k k2 : String)
    (v : β) (h : k2 ≠ k) : dictLookup (dictSet d k v) k2 = dictLookup d k2 := by
  have hb : (k == k2) = false := by simpa using fun he => h he.symm
  induction d with
  | nil =>
    simp only [dictSet, dictLookup, List.find?_cons, List.find?_nil]
    rw [show ((k, v).1 == k2) = false from hb]
  | cons hd rest ih =>
    obtain ⟨k0, v0⟩ := hd
    by_cases h0 : k0 = k
    · subst h0
      have hset : dictSet ((k0, v0) :: rest) k0 v = (k0, v) :: rest := by
        simp [dictSet]
      rw [hset]
      simp only [dictLookup, List.find?_cons]
      rw [show ((k0, v).1 == k2) = false from hb]
    · have hset : dictSet ((k0, v0) :: rest) k v = (k0, v0) :: dictSet rest k v := by
        simp [dictSet, h0]
      rw [hset]
      simp only [dictLookup, List.find?_cons]
      cases hbe : ((k0, v0).1 == k2) with
      | true => rfl
      | false => simpa [dictLookup] using ih

theorem innerLoop_lookup (sec : String) (li_list : List String) : ∀ d,
    dictLookup (li_list.foldl (fun d2 li =>
        if containsSub li.data sec.data then dictSet d2 sec (extractDetail li) else d2) d)
      sec =
    match (li_list.filter (fun li => containsSub li.data sec.data)).getLast? with
    | some li => some (extractDetail li)
    | none => dictLookup d sec := by
  induction li_list using List.reverseRecOn with
  | nil => intro d; simp
  | append_singleton xs x ih =>
    intro d
    rw [List.foldl_append, List.foldl_cons, List.foldl_nil, List.filter_append]
    by_cases hc : containsSub x.data sec.data = true
    · have hfx : List.filter (fun li => containsSub li.data sec.data) [x] = [x] := by
        simp [List.filter_cons, hc]
      rw [if_pos hc, hfx, List.getLast?_concat, dictLookup_dictSet_self]
    · have hfx : List.filter (fun li => containsSub li.data sec.data) [x] = [] := by
        simp [List.filter_cons, hc]
      rw [if_neg hc, hfx, List.append_nil]
      exact ih d

theorem innerLoop_lookup_other (sec k : String) (h : k ≠ sec) (li_list : List String) :
    ∀ d, dictLookup (li_list.foldl (fun d2 li =>
        if containsSub li.data sec.data then dictSet d2 sec (extractDetail li) else d2) d)
      k = dictLookup d k := by
  induction li_list with
  | nil => intro d; rfl
  | cons li rest ih =>
    intro d
    rw [List.foldl_cons]
    by_cases hc : containsSub li.data sec.data = true
    · rw [if_pos hc, ih, dictLookup_dictSet_other _ _ _ _ h]
    · rw [if_neg hc, ih]

theorem outerLoop_preserve (li_list : List String) (s : String) :
    ∀ (secs : List String) (d), s ∉ secs →
      dictLookup (secs.foldl (fun d sec => li_list.foldl (fun d2 li =>
          if containsSub li.data sec.data then dictSet d2 sec (extractDetail li) else d2) d)
        d) s = dictLookup d s := by
  intro secs
  induction secs with
  | nil => intro d _; rfl
  | cons sec rest ih =>
    intro d hs
    rw [List.foldl_cons, ih _ (fun hc => hs (List.mem_cons_of_mem _ hc)),
      innerLoop_lookup_other sec s (fun he => hs (he ▸ List.mem_cons_self _ _))]

theorem outerLoop_lookup (li_list : List String) (s : String) :
    ∀ (secs : List String) (d), secs.Nodup → s ∈ secs →
      dictLookup (secs.foldl (fun d sec => li_list.foldl (fun d2 li =>
          if containsSub li.data sec.data then dictSet d2 sec (extractDetail li) else d2) d)
        d) s =
      match (li_list.filter (fun li => containsSub li.data s.data)).getLast? with
      | some li => some (extractDetail li)
      | none => dictLookup d s := by
  intro secs
  induction secs with
  | nil => intro d _ hmem; simp at hmem
  | cons sec rest ih =>
    intro d hnd hmem
    rw [List.foldl_cons]
    rw [List.nodup_cons] at hnd
    by_cases hss : sec = s
    · subst hss
      rw [outerLoop_preserve li_list sec rest _ hnd.1]
      exact innerLoop_lookup sec li_list d
    · have hmem2 : s ∈ rest := by
        rcases List.mem_cons.mp hmem with rfl | h2
        · exact absurd rfl hss
        · exact h2
      rw [ih _ hnd.2 hmem2]
      cases hlast : (li_list.filter (fun li => containsSub li.data s.data)).getLast? with
      | some li => rfl
      | none =>
        simp only []
        exact innerLoop_lookup_other sec s (fun he => hss he.symm) li_list d

/-- Claim C7 counterexample: with two lines both containing the label
"employees", the stored value comes from the second (later) line, not the
first, and a line differing from the label only in case is not matched at
all: matching is case-sensitive and the last matching line wins. -/
theorem extract_company_details_first_match_cex :
    extract_company_details [("employees 1"), ("employees 2")] = [(("employees"), ("2"))] ∧
    extract_company_details [("employees 1"), ("employees 2")] ≠ [(("employees"), ("1"))] ∧
    extract_company_details [("Employees 5")] = [] := by
  refine ⟨by decide, by decide, by decide⟩

/-- Claim C7 amended: for each of the 7 known section labels,
`extract_company_details` matches the label against each descriptive line
by case-sensitive substring matching, and the last matching line in scan
order determines the stored value for that label (each later matching
line overwrites the earlier value); a label with no matching line is
absent from the result. -/
theorem extract_company_details_last_match (li_list : List String) (s : String)
    (hs : s ∈ sections) :
    dictLookup (extract_company_details li_list) s =
      ((li_list.filter (fun li => containsSub li.data s.data)).getLast?).map
        extractDetail := by
  have h := outerLoop_lookup li_list s sections [] (by decide) hs
  rw [extract_company_details, h]
  cases hlast : (li_list.filter (fun li => containsSub li.data s.data)).getLast? with
  | some li => rfl
  | none => rfl

theorem extract_company_details_last_match_witness :
    dictLookup (extract_company_details [("employees 1"), ("employees 2")]) ("employees")
      = some ("2") := by
  have h := extract_company_details_last_match [("employees 1"), ("employees 2")]
    ("employees") (by decide)
  rw [h]
  decide

/-- Claim C8: the link resolver inspects only the first two result
entries (its result is unchanged by dropping all later entries); it
returns `ok` exactly when one of the first two entries has a truthy
cleaned destination URL containing the domain hint, in which case the
result is the post-processed cleaned URL of the first such entry, and in
every other case it raises (a missing entry raises IndexError, two
non-matching entries raise the link-not-found error). -/
theorem extract_link_spec (links : List (Option String)) (link_type : String) :
    (extract_link links link_type = extract_link (links.take 2) link_type) ∧
    ((∃ s, extract_link links link_type = .ok s) ↔
      (links.take 2).any
        (fun h => (truthyContains (clean_ddg_urls h) link_type).isSome) = true) ∧
    (∀ h0 s, links[0]? = some h0 →
      truthyContains (clean_ddg_urls h0) link_type = some s →
      extract_link links link_type = .ok (postprocessLink s)) ∧
    (∀ h0 h1 s, links[0]? = some h0 →
      truthyContains (clean_ddg_urls h0) link_type = none →
      links[1]? = some h1 →
      truthyContains (clean_ddg_urls h1) link_type = some s →
      extract_link links link_type = .ok (postprocessLink s)) := by
  rcases links with _ | ⟨h0, _ | ⟨h1, rest⟩⟩
  · refine ⟨rfl, ?_, ?_, ?_⟩
    · simp [extract_link]
    · intro h0 s hc
      simp at hc
    · intro h0 h1 s hc
      simp at hc
  · refine ⟨rfl, ?_, ?_, ?_⟩
    · cases ht0 : truthyContains (clean_ddg_urls h0) link_type with
      | some s =>
        constructor
        · intro _
          simp [ht0]
        · intro _
          exact ⟨postprocessLink s, by simp [extract_link, ht0]⟩
      | none =>
        constructor
        · rintro ⟨s, hs⟩
          simp [extract_link, ht0] at hs
        · intro hc
          simp [ht0] at hc
    · intro g0 s hg hc
      simp only [List.getElem?_cons_zero, Option.some_inj] at hg
      subst hg
      simp [extract_link, hc]
    · intro g0 g1 s _ _ hg1 _
      simp at hg1
  · have hsame : extract_link (h0 :: h1 :: rest) link_type =
        extract_link [h0, h1] link_type := by
      cases ht0 : truthyContains (clean_ddg_urls h0) link_type with
      | some s => simp [extract_link, ht0]
      | none =>
        cases ht1 : truthyContains (clean_ddg_urls h1) link_type with
        | some s => simp [extract_link, ht0, ht1]
        | none => simp [extract_link, ht0, ht1]
    refine ⟨hsame, ?_, ?_, ?_⟩
    · cases ht0 : truthyContains (clean_ddg_urls h0) link_type with
      | some s =>
        constructor
        · intro _
          simp [ht0]
        · intro _
          exact ⟨postprocessLink s, by simp [extract_link, ht0]⟩
      | none =>
        cases ht1 : truthyContains (clean_ddg_urls h1) link_type with
        | some s =>
          constructor
          · intro _
            simp [ht0, ht1]
          · intro _
            exact ⟨postprocessLink s, by simp [extract_link, ht0, ht1]⟩
        | none =>
          constructor
          · rintro ⟨s, hs⟩
            simp [extract_link, ht0, ht1] at hs
          · intro hc
            simp [ht0, ht1] at hc
    · intro g0 s hg hc
      simp only [List.getElem?_cons_zero, Option.some_inj] at hg
      subst hg
      simp [extract_link, hc]
    · intro g0 g1 s hg0 hc0 hg1 hc1
      simp only [List.getElem?_cons_zero, Option.some_inj] at hg0
      simp only [List.getElem?_cons_succ, List.getElem?_cons_zero, Option.some_inj] at hg1
      subst hg0
      subst hg1
      simp [extract_link, hc0, hc1]

theorem extract_link_spec_witness :
    extract_link [some ("https://x.com/a"),
        some ("https://duckduckgo.com/l/?uddg=https%3A%2F%2Fwww.growjo.com%2Fcompany%2FAndela&rut=abc")]
      ("growjo.com") = .ok ("https://www.growjo.com/company/Andela") := by
  have h := (extract_link_spec [some ("https://x.com/a"),
      some ("https://duckduckgo.com/l/?uddg=https%3A%2F%2Fwww.growjo.com%2Fcompany%2FAndela&rut=abc")]
    ("growjo.com")).2.2.2
  have h2 := h ((some ("https://x.com/a")))
    ((some ("https://duckduckgo.com/l/?uddg=https%3A%2F%2Fwww.growjo.com%2Fcompany%2FAndela&rut=abc")))
    (("https://www.growjo.com/company/Andela")) rfl (by decide) rfl (by decide)
  rw [h2]
  exact congrArg Except.ok (by decide)

/-- Claim C9: over the scraped text, investor extraction tallies every
number matched by the alternate phrasing regexes and returns the value of
maximal multiplicity, ties broken in favour of the number first
encountered in scan order; it returns 0 when no phrasing matches or when
the scraping block failed; and on a text containing "has 12 investors"
three times and "backed by 8 investors" once it returns 12. -/
theorem extract_investor_no_spec :
    (∀ e, extract_investor_no (.error e) = 0) ∧
    (∀ raw,
      (findallNums (strLower (strLower raw)) = [] → extract_investor_no (.ok raw) = 0) ∧
      (findallNums (strLower (strLower raw)) ≠ [] →
        extract_investor_no (.ok raw) ∈ findallNums (strLower (strLower raw)) ∧
        (∀ m ∈ findallNums (strLower (strLower raw)),
          (findallNums (strLower (strLower raw))).count m ≤
            (findallNums (strLower (strLower raw))).count
              (extract_investor_no (.ok raw))) ∧
        (∀ m ∈ findallNums (strLower (strLower raw)),
          (findallNums (strLower (strLower raw))).count m =
            (findallNums (strLower (strLower raw))).count
              (extract_investor_no (.ok raw)) →
          firstIdx (findallNums (strLower (strLower raw)))
              (extract_investor_no (.ok raw)) ≤
            firstIdx (findallNums (strLower (strLower raw))) m))) ∧
    extract_investor_no (.ok (String.data
      ("x has 12 investors, y has 12 investors, z has 12 investors, backed by 8 investors")))
      = 12 := by
  refine ⟨fun e => rfl, ?_, by decide⟩
  intro raw
  constructor
  · intro hnil
    simp [extract_investor_no, hnil, tally, tallyFrom, pickMax]
  · intro hne
    obtain ⟨x, hx⟩ := List.exists_mem_of_ne_nil _ hne
    have htne : tally (findallNums (strLower (strLower raw))) ≠ [] := by
      intro hcon
      have hkeys := (tally_spec (findallNums (strLower (strLower raw)))).2.1
      have : x ∈ keysOf (tally (findallNums (strLower (strLower raw)))) :=
        (hkeys x).mpr hx
      rw [hcon] at this
      simp [keysOf] at this
    obtain ⟨kv, hp⟩ : ∃ kv, pickMax (tally (findallNums (strLower (strLower raw))))
        = some kv := by
      cases hp : pickMax (tally (findallNums (strLower (strLower raw)))) with
      | none => exact absurd ((pickMax_eq_none_iff _).mp hp) htne
      | some kv => exact ⟨kv, rfl⟩
    have hval : extract_investor_no (.ok raw) = kv.1 := by
      simp [extract_investor_no, hp]
    obtain ⟨hmem, _, hmax, htie⟩ := pickMax_tally_spec hp
    rw [hval]
    exact ⟨hmem, hmax, htie⟩

theorem extract_investor_no_spec_witness :
    extract_investor_no (.ok (String.data
        ("a has 7 investors and backed by 7 investors and has 9 investors")))
      ∈ findallNums (strLower (strLower (String.data
        ("a has 7 investors and backed by 7 investors and has 9 investors")))) := by
  have h := ((extract_investor_no_spec).2.1 (String.data
    ("a has 7 investors and backed by 7 investors and has 9 investors"))).2 (by decide)
  exact h.1

end LiteApi
